import Mathlib

/-!
Verification of the duplicate-checker in `check_duplicate.py`.

Strings are embedded as `List Char`.  Python's `str.strip` / `str.lower`
are modelled for the ASCII whitespace and letter ranges, which is the
range the accepted rule grammar lives in.  The regular expression used by
`normalize` is embedded as a decidable predicate on the dot-separated
labels of the candidate domain.
-/

namespace CheckDup

/-- Python whitespace test used by `str.strip` (ASCII whitespace:
space, tab, newline, carriage return, vertical tab, form feed). -/
def isPySpace (c : Char) : Bool :=
  c == ' ' || c == '\t' || c == '\n' || c == '\r' || c == Char.ofNat 11 || c == Char.ofNat 12

/-- Python `str.strip`: remove whitespace from both ends. -/
def pyStrip (l : List Char) : List Char :=
  ((l.dropWhile isPySpace).reverse.dropWhile isPySpace).reverse

/-- Python `str.lower` on a single character (ASCII range `A`–`Z`,
code points 65–90, mapped 32 code points up to `a`–`z`). -/
def pyLowerChar (c : Char) : Char :=
  if 65 ≤ c.toNat ∧ c.toNat ≤ 90 then Char.ofNat (c.toNat + 32) else c

/-- Python `str.lower`. -/
def pyLower (l : List Char) : List Char := l.map pyLowerChar

/-- Python `str.split('.')`: e.g. `"a.b".split('.') == ["a", "b"]`,
`"".split('.') == [""]`. -/
def splitDots : List Char → List (List Char)
  | [] => [[]]
  | c :: rest =>
    if c = '.' then [] :: splitDots rest
    else
      match splitDots rest with
      | [] => [[c]]
      | s :: ss => (c :: s) :: ss

/-- Python `'.'.join`. -/
def joinDots : List (List Char) → List Char
  | [] => []
  | [l] => l
  | l :: ls => l ++ '.' :: joinDots ls

/-- Character class `[a-z0-9]` of the rule regex. -/
def isAlnumL (c : Char) : Bool :=
  (decide (97 ≤ c.toNat) && decide (c.toNat ≤ 122)) ||
    (decide (48 ≤ c.toNat) && decide (c.toNat ≤ 57))

/-- Character class `[a-z0-9-]` of the rule regex. -/
def isLabelChar (c : Char) : Bool := isAlnumL c || c == '-'

/-- Character class `[a-z]` of the rule regex. -/
def isLowerAlpha (c : Char) : Bool :=
  decide (97 ≤ c.toNat) && decide (c.toNat ≤ 122)

/-- The inner-label regex `[a-z0-9]([a-z0-9-]*[a-z0-9])?`: a non-empty
string of `[a-z0-9-]` whose first and last characters are alphanumeric. -/
def matchesLabel (l : List Char) : Bool :=
  l.all isLabelChar && isAlnumL (l.headD '-') && isAlnumL (l.getLastD '-')

/-- The final-label regex `[a-z]{2,}`. -/
def matchesFinal (l : List Char) : Bool :=
  decide (2 ≤ l.length) && l.all isLowerAlpha

/-- `re.fullmatch` of the domain pattern from `normalize`
(`^[a-z0-9]([a-z0-9-]*[a-z0-9])?(\.[a-z0-9]([a-z0-9-]*[a-z0-9])?)*\.[a-z]\x7b2,\x7d$`):
since neither label pattern can match a dot or an empty string, a full
match is exactly a dot-split into at least two labels, all leading ones
matching the inner-label pattern and the last matching `[a-z]\x7b2,\x7d`. -/
def re_fullmatch (domain : List Char) : Bool :=
  let ls := splitDots domain
  decide (2 ≤ ls.length) && ls.dropLast.all matchesLabel && matchesFinal (ls.getLastD [])

/-- The Python slice `rule[2:-1]`: remove the leading `||` and trailing `^`. -/
def ruleDomain (rule : List Char) : List Char := (rule.drop 2).dropLast

/-- Python `line.startswith('||')`. -/
def startsPipes (l : List Char) : Bool :=
  match l with
  | a :: b :: _ => a == '|' && b == '|'
  | _ => false

/-- Python `line.endswith('^')`. -/
def endsCaret (l : List Char) : Bool := l.getLast? == some '^'

/-- `normalize` from `check_duplicate.py` (lines 16–25): strip and
lowercase the line, require the `||…^` envelope with no `$`, and require
the body to match the domain regex; return the canonical line, or the
empty string on rejection. -/
def normalize (line : List Char) : List Char :=
  let l := pyLower (pyStrip line)
  if startsPipes l && endsCaret l && !(l.contains '$') then
    if re_fullmatch (ruleDomain l) then l else []
  else []

/-- The generator `any('.'.join(parts[i:]) in domains for i in range(1, len(parts)))`
from `prune_subdomain`. -/
def hasAncestorIn (domains : Finset (List Char)) (domain : List Char) : Bool :=
  (List.range' 1 ((splitDots domain).length - 1)).any
    (fun i => decide (joinDots ((splitDots domain).drop i) ∈ domains))

/-- `prune_subdomain` from `check_duplicate.py` (lines 27–43): drop every
rule one of whose proper label-suffix domains is the domain of some rule
of the input set. -/
def prune_subdomain (rules : Finset (List Char)) : Finset (List Char) :=
  if rules = ∅ then rules
  else rules.filter (fun rule => hasAncestorIn (rules.image ruleDomain) (ruleDomain rule) = false)

/-- Helper for `str.splitlines`: accumulates the current line (reversed)
and splits at `\r\n`, `\n` or `\r`; a trailing terminator produces no
extra empty line. -/
def pySplitlinesAux : List Char → List Char → List (List Char)
  | acc, [] => if acc.isEmpty then [] else [acc.reverse]
  | acc, '\r' :: '\n' :: rest => acc.reverse :: pySplitlinesAux [] rest
  | acc, '\n' :: rest => acc.reverse :: pySplitlinesAux [] rest
  | acc, '\r' :: rest => acc.reverse :: pySplitlinesAux [] rest
  | acc, c :: rest => pySplitlinesAux (c :: acc) rest

/-- Python `str.splitlines` (for the line terminators `\n`, `\r`, `\r\n`). -/
def pySplitlines (s : List Char) : List (List Char) := pySplitlinesAux [] s

/-- `extract_rules` from `check_duplicate.py` (lines 63–64): the set
comprehension keeping `normalize(line)` for every line whose
normalization is non-empty. -/
def extract_rules (content : List Char) : Finset (List Char) :=
  (((pySplitlines content).filter (fun line => !(normalize line).isEmpty)).map normalize).toFinset

/-- `load_sources` from `check_duplicate.py` (lines 66–74), modelled on
the decoded lines of the configuration file: keep lines that are
non-blank and do not start with `#`, and return `line.split('#')[0].strip()`
for each kept line. -/
def load_sources (lines : List (List Char)) : List (List Char) :=
  (lines.filter (fun line => !(pyStrip line).isEmpty && !(line.headD ' ' == '#'))).map
    (fun line => pyStrip (line.takeWhile (fun c => c != '#')))

/-- The loop of `run` building `rule_sources` (lines 91–93): the sources
whose pruned set contains `rule`, in iteration order. -/
def ruleSources (source_pruned : List (List Char × Finset (List Char)))
    (rule : List Char) : List (List Char) :=
  (source_pruned.filter (fun p => decide (rule ∈ p.2))).map Prod.fst

/-- One per-source record of the JSON report built by `run`. -/
structure SourceReport where
  total : Nat
  duplicate : Nat
  distinct : Int
  duplicate_rate : ℚ
deriving DecidableEq

/-- One entry of the report loop of `run` (lines 97–104): `duplicate`
counts the rules of this source appearing in more than one source. -/
def reportFor (source_pruned : List (List Char × Finset (List Char)))
    (rules : Finset (List Char)) : SourceReport :=
  ⟨rules.card,
   (rules.filter (fun r => 1 < (ruleSources source_pruned r).length)).card,
   (rules.card : Int) - ((rules.filter (fun r => 1 < (ruleSources source_pruned r).length)).card : Int),
   (((rules.filter (fun r => 1 < (ruleSources source_pruned r).length)).card : ℚ)) / ((max rules.card 1 : Nat) : ℚ)⟩

/-- The aggregation stage of `run` (lines 91–104): one report record per
source of the per-source pruned map. -/
def run_report (source_pruned : List (List Char × Finset (List Char))) :
    List (List Char × SourceReport) :=
  source_pruned.map (fun p => (p.1, reportFor source_pruned p.2))

/-- A canonical Rule in the sense of the data model: shape `||domain^`
with a domain accepted by the rule regex. -/
def canonicalRule (r : List Char) : Bool :=
  startsPipes r && endsCaret r && re_fullmatch (ruleDomain r)

/-- `anc` is an ancestor domain of `d`: the dot-join of a non-empty
proper suffix of `d`'s dot-separated label sequence. -/
def isAncestorOf (anc d : List Char) : Prop :=
  ∃ i ∈ Finset.Ico 1 (splitDots d).length, joinDots ((splitDots d).drop i) = anc

instance (anc d : List Char) : Decidable (isAncestorOf anc d) := by
  unfold isAncestorOf
  infer_instance

/-- Extracted rule set of the spec's first end-to-end example source. -/
def sampleRules1 : Finset (List Char) :=
  {"||ads.example.com^".data, "||example.com^".data}

/-- Extracted rule set of the spec's second end-to-end example source. -/
def sampleRules2 : Finset (List Char) := {"||example.com^".data}

/-- The per-source pruned map of the end-to-end example. -/
def sampleMap : List (List Char × Finset (List Char)) :=
  [("src1".data, prune_subdomain sampleRules1), ("src2".data, prune_subdomain sampleRules2)]

/-! ### Basic lemmas about the split/join helpers -/

@[simp] lemma joinDots_nil : joinDots [] = [] := rfl

@[simp] lemma joinDots_single (l : List Char) : joinDots [l] = l := rfl

@[simp] lemma joinDots_cons2 (a b : List Char) (t : List (List Char)) :
    joinDots (a :: b :: t) = a ++ '.' :: joinDots (b :: t) := rfl

lemma joinDots_cons_of_ne_nil (a : List Char) {t : List (List Char)} (h : t ≠ []) :
    joinDots (a :: t) = a ++ '.' :: joinDots t := by
  cases t with
  | nil => exact absurd rfl h
  | cons b t2 => rfl

lemma splitDots_ne_nil (l : List Char) : splitDots l ≠ [] := by
  induction l with
  | nil => simp [splitDots]
  | cons c rest ih =>
    rw [splitDots]
    split
    · simp
    · cases h : splitDots rest <;> simp

lemma joinDots_splitDots (l : List Char) : joinDots (splitDots l) = l := by
  induction l with
  | nil => rfl
  | cons c rest ih =>
    rw [splitDots]
    by_cases hc : c = '.'
    · subst hc
      rw [if_pos rfl]
      cases h : splitDots rest with
      | nil => exact absurd h (splitDots_ne_nil rest)
      | cons s ss =>
        rw [h] at ih
        rw [joinDots_cons_of_ne_nil _ (by simp), ih]
        rfl
    · rw [if_neg hc]
      cases h : splitDots rest with
      | nil => exact absurd h (splitDots_ne_nil rest)
      | cons s ss =>
        rw [h] at ih
        cases ss with
        | nil =>
          simp only [joinDots_single] at ih
          simp [ih]
        | cons s2 ss2 =>
          simp only [joinDots_cons2] at ih ⊢
          simp [ih]

lemma splitDots_no_dot {l : List Char} (h : '.' ∉ l) : splitDots l = [l] := by
  induction l with
  | nil => rfl
  | cons c rest ih =>
    have hc : ¬ c = '.' := fun e => h (e ▸ List.mem_cons_self c rest)
    have ht : '.' ∉ rest := fun hm => h (List.mem_cons_of_mem c hm)
    rw [splitDots, if_neg hc, ih ht]

lemma splitDots_append_dot (x y : List Char) (h : '.' ∉ x) :
    splitDots (x ++ '.' :: y) = x :: splitDots y := by
  induction x with
  | nil => simp [splitDots]
  | cons c t ih =>
    have hc : ¬ c = '.' := fun e => h (e ▸ List.mem_cons_self c t)
    have ht : '.' ∉ t := fun hm => h (List.mem_cons_of_mem c hm)
    rw [List.cons_append, splitDots, if_neg hc, ih ht]

lemma mem_joinDots {c : Char} {ls : List (List Char)} (h : c ∈ joinDots ls) :
    c = '.' ∨ ∃ s ∈ ls, c ∈ s := by
  induction ls with
  | nil => simp [joinDots] at h
  | cons a t ih =>
    cases t with
    | nil =>
      simp only [joinDots_single] at h
      exact Or.inr ⟨a, by simp, h⟩
    | cons b t2 =>
      rw [joinDots_cons2] at h
      rcases List.mem_append.mp h with h1 | h2
      · exact Or.inr ⟨a, by simp, h1⟩
      · rcases List.mem_cons.mp h2 with rfl | h3
        · exact Or.inl rfl
        · rcases ih h3 with h4 | ⟨s, hs, hcs⟩
          · exact Or.inl h4
          · exact Or.inr ⟨s, by simp [hs], hcs⟩

lemma length_joinDots_cons (a : List Char) {t : List (List Char)} (h : t ≠ []) :
    (joinDots (a :: t)).length = a.length + 1 + (joinDots t).length := by
  rw [joinDots_cons_of_ne_nil a h]
  simp
  omega

lemma length_joinDots_drop_lt (ls : List (List Char)) (i : Nat)
    (h1 : 0 < i) (h2 : i < ls.length) :
    (joinDots (ls.drop i)).length < (joinDots ls).length := by
  induction ls generalizing i with
  | nil => simp at h2
  | cons a t ih =>
    have ht : t ≠ [] := by
      intro e
      rw [e] at h2
      simp at h2
      omega
    cases i with
    | zero => omega
    | succ j =>
      rw [List.drop_succ_cons, length_joinDots_cons a ht]
      rcases Nat.eq_zero_or_pos j with hj | hj
      · subst hj
        simp only [List.drop_zero]
        omega
      · have hlt : j < t.length := by
          have := h2
          simp at this
          omega
        have := ih j hj hlt
        omega

/-! ### Lemmas about the character classes and the regex -/

lemma isLabelChar_of_isLowerAlpha {c : Char} (h : isLowerAlpha c = true) :
    isLabelChar c = true := by
  simp only [isLowerAlpha, Bool.and_eq_true, decide_eq_true_eq] at h
  simp [isLabelChar, isAlnumL, h.1, h.2]

lemma re_fullmatch_parts {d : List Char} (h : re_fullmatch d = true) :
    2 ≤ (splitDots d).length ∧ (splitDots d).dropLast.all matchesLabel = true ∧
      matchesFinal ((splitDots d).getLastD []) = true := by
  unfold re_fullmatch at h
  simp only [Bool.and_eq_true, decide_eq_true_eq] at h
  exact ⟨h.1.1, h.1.2, h.2⟩

lemma re_fullmatch_chars {d : List Char} (h : re_fullmatch d = true) :
    ∀ c ∈ d, c = '.' ∨ isLabelChar c = true := by
  intro c hc
  have hd : c ∈ joinDots (splitDots d) := by
    rw [joinDots_splitDots]
    exact hc
  rcases mem_joinDots hd with h1 | ⟨s, hs, hcs⟩
  · exact Or.inl h1
  · right
    obtain ⟨hlen, hlab, hfin⟩ := re_fullmatch_parts h
    have hne : splitDots d ≠ [] := splitDots_ne_nil d
    have hsplit : (splitDots d).dropLast ++ [(splitDots d).getLast hne] = splitDots d :=
      List.dropLast_append_getLast hne
    rw [← hsplit] at hs
    rcases List.mem_append.mp hs with hs1 | hs2
    · have := List.all_eq_true.mp hlab s hs1
      simp only [matchesLabel, Bool.and_eq_true] at this
      exact List.all_eq_true.mp this.1.1 c hcs
    · have hse : s = (splitDots d).getLast hne := by simpa using hs2
      have hgd : (splitDots d).getLastD [] = (splitDots d).getLast hne := by
        rw [List.getLastD_eq_getLast?, List.getLast?_eq_getLast _ hne]
        rfl
      rw [hgd] at hfin
      simp only [matchesFinal, Bool.and_eq_true, decide_eq_true_eq] at hfin
      exact isLabelChar_of_isLowerAlpha (List.all_eq_true.mp hfin.2 c (hse ▸ hcs))

lemma re_fullmatch_has_dot {d : List Char} (h : re_fullmatch d = true) : '.' ∈ d := by
  obtain ⟨hlen, -, -⟩ := re_fullmatch_parts h
  have : '.' ∈ joinDots (splitDots d) := by
    cases hls : splitDots d with
    | nil => exact absurd hls (splitDots_ne_nil d)
    | cons a t =>
      cases t with
      | nil =>
        rw [hls] at hlen
        simp at hlen
      | cons b t2 => simp
  rwa [joinDots_splitDots] at this

/-! ### Lemmas about strip and lower -/

lemma dropWhile_append_all {p : Char → Bool} {w l : List Char} (h : ∀ c ∈ w, p c = true) :
    (w ++ l).dropWhile p = l.dropWhile p := by
  induction w with
  | nil => rfl
  | cons a t ih =>
    have ha : p a = true := h a (List.mem_cons_self a t)
    rw [List.cons_append, List.dropWhile_cons, if_pos ha]
    exact ih (fun c hc => h c (List.mem_cons_of_mem a hc))

lemma dropWhile_cons_false {p : Char → Bool} {a : Char} {l : List Char} (ha : p a = false) :
    (a :: l).dropWhile p = a :: l := by
  rw [List.dropWhile_cons, if_neg (by simp [ha])]

lemma mem_dropWhile_of_mem {p : Char → Bool} {a : Char} {l : List Char}
    (h : a ∈ l) (hp : p a = false) : a ∈ l.dropWhile p := by
  induction l with
  | nil => simp at h
  | cons b t ih =>
    rw [List.dropWhile_cons]
    by_cases hb : p b = true
    · rw [if_pos hb]
      rcases List.mem_cons.mp h with rfl | h2
      · rw [hb] at hp
        cases hp
      · exact ih h2
    · rw [if_neg hb]
      exact h

lemma mem_pyStrip_of_mem {a : Char} {l : List Char} (h : a ∈ l) (hp : isPySpace a = false) :
    a ∈ pyStrip l := by
  unfold pyStrip
  rw [List.mem_reverse]
  exact mem_dropWhile_of_mem (List.mem_reverse.mpr (mem_dropWhile_of_mem h hp)) hp

lemma pyStrip_spaces (w1 w2 m : List Char) (a b : Char)
    (hw1 : ∀ c ∈ w1, isPySpace c = true) (hw2 : ∀ c ∈ w2, isPySpace c = true)
    (ha : isPySpace a = false) (hb : isPySpace b = false) :
    pyStrip (w1 ++ (a :: (m ++ [b])) ++ w2) = a :: (m ++ [b]) := by
  unfold pyStrip
  rw [List.append_assoc, dropWhile_append_all hw1]
  rw [show a :: (m ++ [b]) ++ w2 = a :: (m ++ [b] ++ w2) by simp]
  rw [dropWhile_cons_false ha]
  rw [show (a :: (m ++ [b] ++ w2)).reverse = w2.reverse ++ (b :: (m.reverse ++ [a])) by
    simp]
  rw [dropWhile_append_all (fun c hc => hw2 c (List.mem_reverse.mp hc))]
  rw [dropWhile_cons_false hb]
  simp

/-- Stripping is the identity when both end characters are non-whitespace. -/
lemma pyStrip_of_ends (m : List Char) (a b : Char)
    (ha : isPySpace a = false) (hb : isPySpace b = false) :
    pyStrip (a :: (m ++ [b])) = a :: (m ++ [b]) := by
  have := pyStrip_spaces [] [] m a b (by simp) (by simp) ha hb
  simpa using this

lemma toNat_ofNat_of_valid {n : Nat} (h : n.isValidChar) : (Char.ofNat n).toNat = n := by
  rw [Char.ofNat, dif_pos h]
  rfl

lemma pyLowerChar_idem (c : Char) : pyLowerChar (pyLowerChar c) = pyLowerChar c := by
  unfold pyLowerChar
  by_cases h : 65 ≤ c.toNat ∧ c.toNat ≤ 90
  · rw [if_pos h]
    have hv : (c.toNat + 32).isValidChar := Or.inl (by omega)
    have ht : (Char.ofNat (c.toNat + 32)).toNat = c.toNat + 32 := toNat_ofNat_of_valid hv
    rw [if_neg]
    rw [ht]
    omega
  · rw [if_neg h, if_neg h]

lemma pyLower_pyLower (l : List Char) : pyLower (pyLower l) = pyLower l := by
  unfold pyLower
  rw [List.map_map]
  exact List.map_congr_left (fun c _ => pyLowerChar_idem c)

/-! ### Characterizing normalize -/

lemma startsPipes_iff {l : List Char} :
    startsPipes l = true ↔ ∃ t, l = '|' :: '|' :: t := by
  cases l with
  | nil => simp [startsPipes]
  | cons a t =>
    cases t with
    | nil => simp [startsPipes]
    | cons b t2 =>
      constructor
      · intro h
        have hab : a = '|' ∧ b = '|' := by simpa [startsPipes] using h
        exact ⟨t2, by rw [hab.1, hab.2]⟩
      · rintro ⟨t, ht⟩
        rw [List.cons_eq_cons] at ht
        obtain ⟨rfl, ht2⟩ := ht
        rw [List.cons_eq_cons] at ht2
        obtain ⟨rfl, rfl⟩ := ht2
        simp [startsPipes]

/-- The branching of `normalize`, written out without the `let`. -/
lemma normalize_eq (line : List Char) :
    normalize line =
      if (startsPipes (pyLower (pyStrip line)) && endsCaret (pyLower (pyStrip line)) &&
          !((pyLower (pyStrip line)).contains '$')) = true then
        if re_fullmatch (ruleDomain (pyLower (pyStrip line))) = true
          then pyLower (pyStrip line) else []
      else [] := rfl

lemma normalize_guard_fail {line : List Char}
    (h : (startsPipes (pyLower (pyStrip line)) && endsCaret (pyLower (pyStrip line)) &&
        !((pyLower (pyStrip line)).contains '$')) = false) :
    normalize line = [] := by
  rw [normalize_eq, h]
  simp

lemma normalize_re_fail {line : List Char}
    (h : re_fullmatch (ruleDomain (pyLower (pyStrip line))) = false) :
    normalize line = [] := by
  rw [normalize_eq]
  split
  · rw [h]
    simp
  · rfl

lemma normalize_of_guards {line : List Char}
    (h1 : startsPipes (pyLower (pyStrip line)) = true)
    (h2 : endsCaret (pyLower (pyStrip line)) = true)
    (h3 : (pyLower (pyStrip line)).contains '$' = false)
    (h4 : re_fullmatch (ruleDomain (pyLower (pyStrip line))) = true) :
    normalize line = pyLower (pyStrip line) := by
  rw [normalize_eq, h1, h2, h3, h4]
  simp

lemma normalize_accepted {line : List Char} (h : normalize line ≠ []) :
    normalize line = pyLower (pyStrip line) ∧
      startsPipes (pyLower (pyStrip line)) = true ∧
      endsCaret (pyLower (pyStrip line)) = true ∧
      (pyLower (pyStrip line)).contains '$' = false ∧
      re_fullmatch (ruleDomain (pyLower (pyStrip line))) = true := by
  cases hg : (startsPipes (pyLower (pyStrip line)) && endsCaret (pyLower (pyStrip line)) &&
      !((pyLower (pyStrip line)).contains '$')) with
  | false => exact absurd (normalize_guard_fail hg) h
  | true =>
    cases hr : re_fullmatch (ruleDomain (pyLower (pyStrip line))) with
    | false => exact absurd (normalize_re_fail hr) h
    | true =>
      rw [Bool.and_eq_true, Bool.and_eq_true, Bool.not_eq_true'] at hg
      exact ⟨normalize_of_guards hg.1.1 hg.1.2 hg.2 hr, hg.1.1, hg.1.2, hg.2, rfl⟩

lemma normalize_idem (line : List Char) : normalize (normalize line) = normalize line := by
  by_cases h : normalize line = []
  · rw [h]
    rfl
  · obtain ⟨heq, h1, h2, h3, h4⟩ := normalize_accepted h
    set l := pyLower (pyStrip line) with hl
    rw [heq]
    obtain ⟨t, hshape⟩ := startsPipes_iff.mp h1
    have hlast : l.getLast? = some '^' := by simpa [endsCaret] using h2
    have htne : t ≠ [] := by
      intro e
      rw [hshape, e] at hlast
      simp at hlast
    have hshape2 : l = '|' :: '|' :: (t.dropLast ++ [t.getLast htne]) := by
      rw [hshape, List.dropLast_append_getLast htne]
    have hcaret : t.getLast htne = '^' := by
      rw [hshape] at hlast
      have : t.getLast? = some '^' := by
        rw [← hlast]
        cases t with
        | nil => exact absurd rfl htne
        | cons x xs => simp [List.getLast?_cons_cons]
      rw [List.getLast?_eq_getLast _ htne] at this
      exact Option.some.inj this
    have hstrip : pyStrip l = l := by
      rw [hshape2, hcaret]
      exact pyStrip_of_ends ('|' :: t.dropLast) '|' '^' (by decide) (by decide)
    have hlower : pyLower l = l := by
      rw [hl]
      exact pyLower_pyLower (pyStrip line)
    have hls : pyLower (pyStrip l) = l := by rw [hstrip, hlower]
    rw [normalize_of_guards (by rw [hls]; exact h1) (by rw [hls]; exact h2)
      (by rw [hls]; exact h3) (by rw [hls]; exact h4), hls]

/-! ### Lemmas about prune_subdomain -/

lemma hasAncestorIn_iff {ds : Finset (List Char)} {d : List Char} :
    hasAncestorIn ds d = true ↔
      ∃ i, 1 ≤ i ∧ i < (splitDots d).length ∧ joinDots ((splitDots d).drop i) ∈ ds := by
  unfold hasAncestorIn
  rw [List.any_eq_true]
  constructor
  · rintro ⟨i, hi, hd⟩
    rw [List.mem_range'] at hi
    obtain ⟨j, hj, rfl⟩ := hi
    exact ⟨1 + 1 * j, by omega, by omega, by simpa using hd⟩
  · rintro ⟨i, h1, h2, h3⟩
    refine ⟨i, ?_, by simpa using h3⟩
    rw [List.mem_range']
    refine ⟨i - 1, by omega, ?_⟩
    rw [one_mul]
    omega

lemma hasAncestorIn_eq_false {ds : Finset (List Char)} {d : List Char} :
    hasAncestorIn ds d = false ↔
      ∀ i, 1 ≤ i → i < (splitDots d).length → joinDots ((splitDots d).drop i) ∉ ds := by
  rw [← Bool.not_eq_true, hasAncestorIn_iff]
  push_neg
  rfl

lemma mem_prune {R : Finset (List Char)} {r : List Char} :
    r ∈ prune_subdomain R ↔
      r ∈ R ∧ hasAncestorIn (R.image ruleDomain) (ruleDomain r) = false := by
  unfold prune_subdomain
  split
  · next he =>
    rw [he]
    simp
  · next he => rw [Finset.mem_filter]

lemma prune_subset (R : Finset (List Char)) : prune_subdomain R ⊆ R :=
  fun _ hr => (mem_prune.mp hr).1

lemma hasAncestorIn_false_mono {ds1 ds2 : Finset (List Char)} {d : List Char}
    (hsub : ds1 ⊆ ds2) (h : hasAncestorIn ds2 d = false) : hasAncestorIn ds1 d = false := by
  rw [hasAncestorIn_eq_false] at h ⊢
  intro i h1 h2 hmem
  exact h i h1 h2 (hsub hmem)

/-! ### Canonical rules -/

lemma ruleDomain_mk (d : List Char) : ruleDomain ('|' :: '|' :: (d ++ ['^'])) = d := by
  unfold ruleDomain
  simp

lemma canonicalRule_shape {r : List Char} (h : canonicalRule r = true) :
    r = '|' :: '|' :: (ruleDomain r ++ ['^']) ∧ re_fullmatch (ruleDomain r) = true := by
  unfold canonicalRule at h
  rw [Bool.and_eq_true, Bool.and_eq_true] at h
  obtain ⟨⟨h1, h2⟩, h3⟩ := h
  obtain ⟨t, rfl⟩ := startsPipes_iff.mp h1
  have hlast : ('|' :: '|' :: t).getLast? = some '^' := by simpa [endsCaret] using h2
  have htne : t ≠ [] := by
    intro e
    subst e
    have hv : ('|' :: '|' :: ([] : List Char)).getLast? = some '|' := rfl
    rw [hv] at hlast
    exact absurd (Option.some.inj hlast) (by decide)
  refine ⟨?_, h3⟩
  have hcar : t.getLast htne = '^' := by
    have h5 : t.getLast? = some '^' := by
      rw [← hlast]
      cases t with
      | nil => exact absurd rfl htne
      | cons x xs => simp [List.getLast?_cons_cons]
    rw [List.getLast?_eq_getLast _ htne] at h5
    exact Option.some.inj h5
  have hdom : ruleDomain ('|' :: '|' :: t) = t.dropLast := by
    unfold ruleDomain
    simp
  rw [hdom]
  have hshape : t = t.dropLast ++ ['^'] := by
    rw [← hcar]
    exact (List.dropLast_append_getLast htne).symm
  rw [← hshape]

lemma mem_image_ruleDomain_iff {R : Finset (List Char)}
    (hcan : ∀ r ∈ R, canonicalRule r = true) {d : List Char} :
    d ∈ R.image ruleDomain ↔ ('|' :: '|' :: (d ++ ['^'])) ∈ R := by
  constructor
  · intro h
    obtain ⟨r, hr, rfl⟩ := Finset.mem_image.mp h
    have hs := (canonicalRule_shape (hcan r hr)).1
    rw [← hs]
    exact hr
  · intro h
    exact Finset.mem_image.mpr ⟨_, h, ruleDomain_mk d⟩

/-! ### Claim theorems for the pruner -/

/-- **C1.** For every set `R` of canonical Rules and `r ∈ R`, `prune_subdomain`
keeps `r` iff no ancestor domain of `r`'s domain (dot-join of a non-empty
proper suffix of its label sequence) occurs as a rule `||ancestor^` in `R`;
in particular, when `R` contains both `||a.b.c^` and `||b.c^` (schematically,
for dot-free labels `a`, `b`, `c`), the pruned set excludes `||a.b.c^` and
includes `||b.c^`. -/
theorem prune_keeps_iff_no_ancestor_rule (R : Finset (List Char))
    (hcan : ∀ r ∈ R, canonicalRule r = true) :
    (∀ r ∈ R, (r ∈ prune_subdomain R ↔
      ¬ ∃ anc, isAncestorOf anc (ruleDomain r) ∧ ('|' :: '|' :: (anc ++ ['^'])) ∈ R)) ∧
    (∀ la lb lc : List Char, '.' ∉ la → '.' ∉ lb → '.' ∉ lc →
      ('|' :: '|' :: ((la ++ '.' :: (lb ++ '.' :: lc)) ++ ['^'])) ∈ R →
      ('|' :: '|' :: ((lb ++ '.' :: lc) ++ ['^'])) ∈ R →
      ('|' :: '|' :: ((la ++ '.' :: (lb ++ '.' :: lc)) ++ ['^'])) ∉ prune_subdomain R ∧
      ('|' :: '|' :: ((lb ++ '.' :: lc) ++ ['^'])) ∈ prune_subdomain R) := by
  constructor
  · intro r hr
    rw [mem_prune]
    simp only [hr, true_and]
    rw [hasAncestorIn_eq_false]
    constructor
    · rintro hall ⟨anc, ⟨i, hi, heq⟩, hmem⟩
      rw [Finset.mem_Ico] at hi
      apply hall i hi.1 hi.2
      rw [heq]
      exact (mem_image_ruleDomain_iff hcan).mpr hmem
    · intro hno i h1 h2 hmem
      apply hno
      exact ⟨joinDots ((splitDots (ruleDomain r)).drop i),
        ⟨i, Finset.mem_Ico.mpr ⟨h1, h2⟩, rfl⟩,
        (mem_image_ruleDomain_iff hcan).mp hmem⟩
  · intro la lb lc hla hlb hlc h1 h2
    have hd1 : ruleDomain ('|' :: '|' :: ((la ++ '.' :: (lb ++ '.' :: lc)) ++ ['^'])) =
        la ++ '.' :: (lb ++ '.' :: lc) := ruleDomain_mk _
    have hd2 : ruleDomain ('|' :: '|' :: ((lb ++ '.' :: lc) ++ ['^'])) =
        lb ++ '.' :: lc := ruleDomain_mk _
    have hsplit1 : splitDots (la ++ '.' :: (lb ++ '.' :: lc)) = [la, lb, lc] := by
      rw [splitDots_append_dot _ _ hla, splitDots_append_dot _ _ hlb, splitDots_no_dot hlc]
    have hsplit2 : splitDots (lb ++ '.' :: lc) = [lb, lc] := by
      rw [splitDots_append_dot _ _ hlb, splitDots_no_dot hlc]
    constructor
    · rw [mem_prune]
      rintro ⟨-, hfalse⟩
      rw [hasAncestorIn_eq_false] at hfalse
      apply hfalse 1 (le_refl 1) (by rw [hd1, hsplit1]; simp)
      rw [hd1, hsplit1]
      have hjoin : joinDots (([la, lb, lc] : List (List Char)).drop 1) = lb ++ '.' :: lc := by
        simp
      rw [hjoin]
      exact Finset.mem_image.mpr ⟨_, h2, hd2⟩
    · rw [mem_prune]
      refine ⟨h2, ?_⟩
      rw [hasAncestorIn_eq_false]
      intro i hi1 hi2 hmem
      rw [hd2, hsplit2] at hi2 hmem
      have hieq : i = 1 := by
        simp only [List.length_cons, List.length_nil] at hi2
        omega
      subst hieq
      have hlc2 : lc ∈ R.image ruleDomain := by simpa using hmem
      obtain ⟨r3, hr3, hrd⟩ := Finset.mem_image.mp hlc2
      have hre := (canonicalRule_shape (hcan r3 hr3)).2
      rw [hrd] at hre
      exact hlc (re_fullmatch_has_dot hre)

/-- **C2.** Pruning is idempotent: pruning an already-pruned set changes
nothing. -/
theorem prune_subdomain_idempotent (R : Finset (List Char)) :
    prune_subdomain (prune_subdomain R) = prune_subdomain R := by
  apply Finset.ext
  intro r
  rw [mem_prune, mem_prune]
  constructor
  · rintro ⟨⟨h1, h2⟩, -⟩
    exact ⟨h1, h2⟩
  · rintro ⟨h1, h2⟩
    refine ⟨⟨h1, h2⟩, ?_⟩
    refine hasAncestorIn_false_mono (Finset.image_subset_image ?_) h2
    intro x hx
    exact (mem_prune.mp hx).1

/-- **C3.** After pruning, no remaining rule's domain is a strict subdomain
of (i.e. has as ancestor) another remaining rule's domain. -/
theorem prune_subdomain_no_ancestor_pair (R : Finset (List Char)) (r1 r2 : List Char)
    (h1 : r1 ∈ prune_subdomain R) (h2 : r2 ∈ prune_subdomain R) :
    ¬ isAncestorOf (ruleDomain r2) (ruleDomain r1) := by
  rintro ⟨i, hi, heq⟩
  rw [Finset.mem_Ico] at hi
  obtain ⟨-, hfalse⟩ := mem_prune.mp h1
  rw [hasAncestorIn_eq_false] at hfalse
  apply hfalse i hi.1 hi.2
  rw [heq]
  exact Finset.mem_image.mpr ⟨r2, prune_subset R h2, rfl⟩

/-- **C8.** On a set with no two rules in an ancestor relationship, pruning
is the identity. -/
theorem prune_subdomain_id_on_antichain (R : Finset (List Char))
    (h : ∀ r1 ∈ R, ∀ r2 ∈ R, r1 ≠ r2 → ¬ isAncestorOf (ruleDomain r2) (ruleDomain r1)) :
    prune_subdomain R = R := by
  apply Finset.ext
  intro r
  rw [mem_prune]
  constructor
  · exact fun hr => hr.1
  · intro hr
    refine ⟨hr, ?_⟩
    rw [hasAncestorIn_eq_false]
    intro i hi1 hi2 hmem
    obtain ⟨r2, hr2, hrd⟩ := Finset.mem_image.mp hmem
    by_cases he : r = r2
    · subst he
      have hlt := length_joinDots_drop_lt (splitDots (ruleDomain r)) i hi1 hi2
      rw [joinDots_splitDots] at hlt
      have hlen := congrArg List.length hrd
      omega
    · exact h r hr r2 hr2 he ⟨i, Finset.mem_Ico.mpr ⟨hi1, hi2⟩, hrd.symm⟩

/-- Witness for C1 at a concrete canonical rule set. -/
theorem prune_keeps_iff_no_ancestor_rule_witness :
    "||ads.example.com^".data ∉
      prune_subdomain {"||ads.example.com^".data, "||example.com^".data} ∧
    "||example.com^".data ∈
      prune_subdomain {"||ads.example.com^".data, "||example.com^".data} := by
  have h := prune_keeps_iff_no_ancestor_rule
    {"||ads.example.com^".data, "||example.com^".data} (by decide)
  have h2 := h.2 "ads".data "example".data "com".data
    (by decide) (by decide) (by decide) (by decide) (by decide)
  exact h2

/-- Witness for C3 at a concrete pruned set. -/
theorem prune_subdomain_no_ancestor_pair_witness :
    ¬ isAncestorOf (ruleDomain "||example.com^".data) (ruleDomain "||foo.org^".data) :=
  prune_subdomain_no_ancestor_pair {"||foo.org^".data, "||example.com^".data} _ _
    (by decide) (by decide)

/-- Witness for C8 at a concrete antichain. -/
theorem prune_subdomain_id_on_antichain_witness :
    prune_subdomain {"||example.com^".data, "||foo.org^".data} =
      {"||example.com^".data, "||foo.org^".data} :=
  prune_subdomain_id_on_antichain _ (by decide)

/-! ### Claim theorems for normalize -/

lemma contains_iff_mem {l : List Char} {a : Char} : l.contains a = true ↔ a ∈ l := by
  unfold List.contains
  exact List.elem_iff

/-- **C4.** For every domain `D` accepted by the label grammar, `normalize`
maps `||D^` with arbitrary surrounding whitespace and arbitrary ASCII case
(`E` is any spelling with `pyLower E = D`) to the trimmed, lowercased line
`||D^`; moreover `normalize` is idempotent on every input. -/
theorem normalize_accepts_valid_domains :
    (∀ D E w1 w2 : List Char, re_fullmatch D = true →
      (∀ c ∈ w1, isPySpace c = true) → (∀ c ∈ w2, isPySpace c = true) →
      pyLower E = D →
      normalize (w1 ++ ('|' :: '|' :: (E ++ ['^'])) ++ w2) = '|' :: '|' :: (D ++ ['^'])) ∧
    (∀ line : List Char, normalize (normalize line) = normalize line) := by
  constructor
  · intro D E w1 w2 hre hw1 hw2 hE
    unfold pyLower at hE
    have hstrip : pyStrip (w1 ++ ('|' :: '|' :: (E ++ ['^'])) ++ w2) =
        '|' :: '|' :: (E ++ ['^']) := by
      have hs := pyStrip_spaces w1 w2 ('|' :: E) '|' '^' hw1 hw2 (by decide) (by decide)
      simpa using hs
    have hlower : pyLower ('|' :: '|' :: (E ++ ['^'])) = '|' :: '|' :: (D ++ ['^']) := by
      show List.map pyLowerChar ('|' :: '|' :: (E ++ ['^'])) = _
      rw [List.map_cons, List.map_cons, List.map_append]
      rw [show pyLowerChar '|' = '|' from by decide]
      rw [show List.map pyLowerChar ['^'] = ['^'] from by decide]
      rw [hE]
    have hfull : pyLower (pyStrip (w1 ++ ('|' :: '|' :: (E ++ ['^'])) ++ w2)) =
        '|' :: '|' :: (D ++ ['^']) := by
      rw [hstrip, hlower]
    have hg1 : startsPipes ('|' :: '|' :: (D ++ ['^'])) = true := by simp [startsPipes]
    have hg2 : endsCaret ('|' :: '|' :: (D ++ ['^'])) = true := by
      unfold endsCaret
      rw [show ('|' :: '|' :: (D ++ ['^'])) = ('|' :: '|' :: D) ++ ['^'] by simp]
      rw [List.getLast?_concat]
      rfl
    have hg3 : ('|' :: '|' :: (D ++ ['^'])).contains '$' = false := by
      rw [← Bool.not_eq_true]
      intro hc
      have hmem := contains_iff_mem.mp hc
      rcases List.mem_cons.mp hmem with h' | hmem2
      · exact absurd h' (by decide)
      rcases List.mem_cons.mp hmem2 with h' | hmem3
      · exact absurd h' (by decide)
      rcases List.mem_append.mp hmem3 with h' | h'
      · rcases re_fullmatch_chars hre '$' h' with h'' | h''
        · exact absurd h'' (by decide)
        · exact absurd h'' (by decide)
      · have h'' : ('$' : Char) = '^' := by simp at h'
        exact absurd h'' (by decide)
    have hg4 : re_fullmatch (ruleDomain ('|' :: '|' :: (D ++ ['^']))) = true := by
      rw [ruleDomain_mk]
      exact hre
    have h1 : startsPipes (pyLower (pyStrip (w1 ++ ('|' :: '|' :: (E ++ ['^'])) ++ w2))) = true := by
      rw [hfull]
      exact hg1
    have h2 : endsCaret (pyLower (pyStrip (w1 ++ ('|' :: '|' :: (E ++ ['^'])) ++ w2))) = true := by
      rw [hfull]
      exact hg2
    have h3 : (pyLower (pyStrip (w1 ++ ('|' :: '|' :: (E ++ ['^'])) ++ w2))).contains '$' = false := by
      rw [hfull]
      exact hg3
    have h4 : re_fullmatch (ruleDomain (pyLower (pyStrip (w1 ++ ('|' :: '|' :: (E ++ ['^'])) ++ w2)))) = true := by
      rw [hfull]
      exact hg4
    rw [normalize_of_guards h1 h2 h3 h4, hfull]
  · exact normalize_idem

/-- Witness for C4 at a concrete mixed-case, whitespace-padded line. -/
theorem normalize_accepts_valid_domains_witness :
    normalize (" ".data ++ ('|' :: '|' :: ("ExAmple.CoM".data ++ ['^'])) ++ "  ".data) =
      '|' :: '|' :: ("example.com".data ++ ['^']) :=
  normalize_accepts_valid_domains.1 "example.com".data "ExAmple.CoM".data " ".data "  ".data
    (by decide) (by decide) (by decide) (by decide)

/-- **C5.** `normalize` returns the empty result on every line that
contains `$`, or whose trimmed lowercased form does not have the exact
`||…^` envelope, or whose body fails the label grammar.  (`normalize` is a
total function of the embedding, so it never raises.) -/
theorem normalize_rejects_invalid (line : List Char)
    (h : '$' ∈ line ∨ startsPipes (pyLower (pyStrip line)) = false ∨
      endsCaret (pyLower (pyStrip line)) = false ∨
      re_fullmatch (ruleDomain (pyLower (pyStrip line))) = false) :
    normalize line = [] := by
  rcases h with h | h | h | h
  · apply normalize_guard_fail
    have hmem : '$' ∈ pyLower (pyStrip line) := by
      have hs : '$' ∈ pyStrip line := mem_pyStrip_of_mem h (by decide)
      have hm := List.mem_map_of_mem pyLowerChar hs
      rwa [show pyLowerChar '$' = '$' from by decide] at hm
    have hc : (pyLower (pyStrip line)).contains '$' = true := contains_iff_mem.mpr hmem
    rw [hc]
    simp
  · apply normalize_guard_fail
    rw [h]
    simp
  · apply normalize_guard_fail
    rw [h]
    simp
  · exact normalize_re_fail h

/-- Witness for C5: a line with a `$` option suffix, a line without the
envelope, and a single-label body are all rejected. -/
theorem normalize_rejects_invalid_witness :
    normalize "||example.com^$third-party".data = [] ∧
    normalize "example.com".data = [] ∧
    normalize "||bad^".data = [] :=
  ⟨normalize_rejects_invalid _ (Or.inl (by decide)),
   normalize_rejects_invalid _ (Or.inr (Or.inl (by decide))),
   normalize_rejects_invalid _ (Or.inr (Or.inr (Or.inr (by decide))))⟩

/-! ### Claim theorems for the aggregation stage -/

/-- **C6.** Every `SourceReport` produced by the aggregation stage of `run`
satisfies `distinct + duplicate = total`,
`duplicate_rate = duplicate / max(total, 1)`, `0 ≤ duplicate_rate ≤ 1`,
and `duplicate_rate = 0` for an empty rule set. -/
theorem run_report_count_invariants
    (source_pruned : List (List Char × Finset (List Char)))
    (src : List Char) (rep : SourceReport)
    (h : (src, rep) ∈ run_report source_pruned) :
    rep.distinct + (rep.duplicate : Int) = (rep.total : Int) ∧
    rep.duplicate_rate = (rep.duplicate : ℚ) / ((max rep.total 1 : Nat) : ℚ) ∧
    0 ≤ rep.duplicate_rate ∧ rep.duplicate_rate ≤ 1 ∧
    (rep.total = 0 → rep.duplicate_rate = 0) := by
  unfold run_report at h
  obtain ⟨p, hp, heq⟩ := List.mem_map.mp h
  have hrep : rep = reportFor source_pruned p.2 := ((Prod.ext_iff.mp heq).2).symm
  subst hrep
  have hd : (p.2.filter (fun r => 1 < (ruleSources source_pruned r).length)).card ≤ p.2.card :=
    Finset.card_filter_le _ _
  simp only [reportFor]
  refine ⟨by omega, trivial, ?_, ?_, ?_⟩
  · apply div_nonneg
    · exact Nat.cast_nonneg _
    · exact Nat.cast_nonneg _
  · apply div_le_one_of_le₀
    · have hle : (p.2.filter (fun r => 1 < (ruleSources source_pruned r).length)).card ≤
          max p.2.card 1 := le_trans hd (le_max_left _ _)
      exact_mod_cast hle
    · exact Nat.cast_nonneg _
  · intro h0
    have hz : (p.2.filter (fun r => 1 < (ruleSources source_pruned r).length)).card = 0 := by
      omega
    rw [hz]
    simp

/-- Witness for C6 at the concrete end-to-end example map. -/
theorem run_report_count_invariants_witness :
    (reportFor sampleMap (prune_subdomain sampleRules1)).distinct +
      ((reportFor sampleMap (prune_subdomain sampleRules1)).duplicate : Int) =
      ((reportFor sampleMap (prune_subdomain sampleRules1)).total : Int) ∧
    (reportFor sampleMap (prune_subdomain sampleRules1)).duplicate_rate =
      ((reportFor sampleMap (prune_subdomain sampleRules1)).duplicate : ℚ) /
        ((max (reportFor sampleMap (prune_subdomain sampleRules1)).total 1 : Nat) : ℚ) ∧
    0 ≤ (reportFor sampleMap (prune_subdomain sampleRules1)).duplicate_rate ∧
    (reportFor sampleMap (prune_subdomain sampleRules1)).duplicate_rate ≤ 1 ∧
    ((reportFor sampleMap (prune_subdomain sampleRules1)).total = 0 →
      (reportFor sampleMap (prune_subdomain sampleRules1)).duplicate_rate = 0) :=
  run_report_count_invariants sampleMap "src1".data
    (reportFor sampleMap (prune_subdomain sampleRules1))
    (by exact List.mem_cons_self _ _)

/-- **C7.** End-to-end example: with Source1 = `{||ads.example.com^, ||example.com^}`
and Source2 = `{||example.com^}`, pruning maps Source1 to `{||example.com^}`
and leaves Source2 unchanged, and the aggregation stage reports
total 1, duplicate 1, distinct 0, duplicate_rate 1 for both sources. -/
theorem end_to_end_two_sources :
    prune_subdomain sampleRules1 = {"||example.com^".data} ∧
    prune_subdomain sampleRules2 = {"||example.com^".data} ∧
    run_report sampleMap =
      [("src1".data, ⟨1, 1, 0, 1⟩), ("src2".data, ⟨1, 1, 0, 1⟩)] := by
  refine ⟨by decide, by decide, ?_⟩
  have hc1 : (prune_subdomain sampleRules1).card = 1 := by decide
  have hd1 : ((prune_subdomain sampleRules1).filter
      (fun r => 1 < (ruleSources sampleMap r).length)).card = 1 := by decide
  have hc2 : (prune_subdomain sampleRules2).card = 1 := by decide
  have hd2 : ((prune_subdomain sampleRules2).filter
      (fun r => 1 < (ruleSources sampleMap r).length)).card = 1 := by decide
  have e1 : reportFor sampleMap (prune_subdomain sampleRules1) = ⟨1, 1, 0, 1⟩ := by
    unfold reportFor
    rw [hc1, hd1]
    norm_num
  have e2 : reportFor sampleMap (prune_subdomain sampleRules2) = ⟨1, 1, 0, 1⟩ := by
    unfold reportFor
    rw [hc2, hd2]
    norm_num
  calc run_report sampleMap
      = [("src1".data, reportFor sampleMap (prune_subdomain sampleRules1)),
         ("src2".data, reportFor sampleMap (prune_subdomain sampleRules2))] := rfl
    _ = [("src1".data, ⟨1, 1, 0, 1⟩), ("src2".data, ⟨1, 1, 0, 1⟩)] := by rw [e1, e2]

/-! ### Claim theorems for the source-list loader -/

lemma pyStrip_eq_nil_iff {l : List Char} :
    pyStrip l = [] ↔ ∀ c ∈ l, isPySpace c = true := by
  unfold pyStrip
  rw [List.reverse_eq_nil_iff, List.dropWhile_eq_nil_iff]
  constructor
  · intro h c hc
    by_cases hsp : isPySpace c = true
    · exact hsp
    · have hc2 : c ∈ l.dropWhile isPySpace :=
        mem_dropWhile_of_mem hc (Bool.not_eq_true _ ▸ hsp)
      exact h c (List.mem_reverse.mpr hc2)
  · intro h c hc
    have hc2 : c ∈ l.dropWhile isPySpace := List.mem_reverse.mp hc
    exact h c ((List.dropWhile_sublist isPySpace).subset hc2)

/-- **C9 counterexample.** The loader returns the empty string for a line
consisting of whitespace followed by a comment (the line is not skipped,
because only `#` in the first column marks a comment line). -/
theorem load_sources_empty_entry_cex :
    [] ∈ load_sources ["  # comment".data] := by decide

/-- **C9 (amended).** Every entry returned by the loader comes from a kept
line (non-blank, `#` not in the first column), and equals the text of that
line before its first `#` with surrounding whitespace removed; the entry is
the empty string exactly when everything before the first `#` is
whitespace (so entries can be empty, for comment lines preceded by
whitespace). -/
theorem load_sources_entries_spec (lines : List (List Char)) (e : List Char)
    (h : e ∈ load_sources lines) :
    ∃ l ∈ lines, (pyStrip l ≠ [] ∧ l.headD ' ' ≠ '#') ∧
      e = pyStrip (l.takeWhile (fun c => c != '#')) ∧
      (e = [] ↔ ∀ c ∈ l.takeWhile (fun c => c != '#'), isPySpace c = true) := by
  unfold load_sources at h
  obtain ⟨l, hl, rfl⟩ := List.mem_map.mp h
  obtain ⟨hmem, hcond⟩ := List.mem_filter.mp hl
  rw [Bool.and_eq_true, Bool.not_eq_true', Bool.not_eq_true'] at hcond
  refine ⟨l, hmem, ⟨?_, ?_⟩, rfl, pyStrip_eq_nil_iff⟩
  · intro he
    rw [he] at hcond
    simp at hcond
  · intro he
    rw [he] at hcond
    simp at hcond

/-- Witness for C9's amended claim at a concrete configuration line. -/
theorem load_sources_entries_spec_witness :
    ∃ l ∈ ["http://a.co # x".data], (pyStrip l ≠ [] ∧ l.headD ' ' ≠ '#') ∧
      "http://a.co".data = pyStrip (l.takeWhile (fun c => c != '#')) ∧
      ("http://a.co".data = ([] : List Char) ↔
        ∀ c ∈ l.takeWhile (fun c => c != '#'), isPySpace c = true) :=
  load_sources_entries_spec ["http://a.co # x".data] "http://a.co".data (by decide)

/-! ### Claim theorem for extract_rules -/

lemma extract_rules_mem {content r : List Char} (h : r ∈ extract_rules content) :
    r ≠ [] ∧ normalize r = r := by
  unfold extract_rules at h
  rw [List.mem_toFinset] at h
  obtain ⟨l, hl, rfl⟩ := List.mem_map.mp h
  have hcond := (List.mem_filter.mp hl).2
  rw [Bool.not_eq_true', ← Bool.not_eq_true] at hcond
  have hne : normalize l ≠ [] := fun he => hcond (by rw [he]; rfl)
  exact ⟨hne, normalize_idem l⟩

/-- **C10.** Every member of `extract_rules content` is a non-empty
canonical rule that is a fixed point of `normalize`; the empty string is
never a member. -/
theorem extract_rules_fixed_points (content : List Char) (r : List Char)
    (h : r ∈ extract_rules content) :
    (r ≠ [] ∧ normalize r = r) ∧ [] ∉ extract_rules content :=
  ⟨extract_rules_mem h, fun habs => (extract_rules_mem habs).1 rfl⟩

/-- Witness for C10 at a concrete downloaded content. -/
theorem extract_rules_fixed_points_witness :
    ("||a.co^".data ≠ [] ∧ normalize "||a.co^".data = "||a.co^".data) ∧
      [] ∉ extract_rules "x\n||a.co^\nbad".data :=
  extract_rules_fixed_points "x\n||a.co^\nbad".data "||a.co^".data (by decide)

example : normalize "  ||ExAmple.CoM^  ".data = "||example.com^".data := by decide
example : normalize "||example.com^$x".data = [] := by decide
example : normalize "||bad^".data = [] := by decide
example : normalize "||-a.com^".data = [] := by decide
example : normalize "||a-b.c0.org^".data = "||a-b.c0.org^".data := by decide
example : prune_subdomain {"||ads.example.com^".data, "||example.com^".data} =
    {"||example.com^".data} := by decide
example : extract_rules "x\n||a.co^\nbad".data = {"||a.co^".data} := by decide
example : load_sources ["  #c".data] = [[]] := by decide
example : load_sources ["http://a.co # x".data, "#c".data, "  ".data] = ["http://a.co".data] := by decide

end CheckDup
